import Mathlib

/-!
# Verification of the perfnum IPC coordination substrate

Shallow embedding of the perfect-number distribution system (coordinator
`manage.c`, worker `compute.c`, shared helpers `packets.c` / `shmem.c` /
`sock.c`) at revision 1.0 of the source tree, together with proofs about
the embedded definitions.

Machine integers are modelled as `Nat`/`Int`; where C unsigned overflow
matters the reduction modulo `2^32` is written explicitly.  Sizes of the
relevant C types follow the host ABI the program targets (ILP32/LP64
x86 Linux with glibc): `sizeof(int) = sizeof(pid_t) = 4`,
`sizeof(sem_t) = 32`, and `struct process { pid_t; int; int; }` has size
12 under natural alignment.
-/

namespace Perfnum

/-! ## C type sizes (host ABI constants used by the size computations) -/

/-- `sizeof(int)` on the target host. -/
def sizeofInt : Nat := 4

/-- `sizeof(pid_t)` on the target host. -/
def sizeofPid : Nat := 4

/-- `sizeof(sem_t)` on the target host (glibc on x86-64). -/
def sizeofSem : Nat := 32

/-- `sizeof(struct process)`: `pid_t pid; int found; int tested;`
(shmem.h), naturally aligned. -/
def sizeofProcess : Nat := 12

/-- `NPERFNUMS` (shmem.h): capacity of the shared result table. -/
def NPERFNUMS : Nat := 20

/-- `NPROCS` (shmem.h): capacity of the shared worker roster. -/
def NPROCS : Nat := 20

/-- `NASSIGN` (manage.c): number of candidates granted per `RANGE`. -/
def NASSIGN : Int := 1000

/-- `PID_SERVER` (packets.h): reserved pid naming the manager. -/
def PID_SERVER : Int := 0

/-- `PID_CLIENT` (packets.h): reserved pid naming a peer compute client. -/
def PID_CLIENT : Int := 1

/-! ## Record protocol (packets.h / packets.c)

`union packet` is a tagged union whose variants are
`packet_done (id, pid)`, `packet_closed (id, pid)`,
`packet_range (id, start, end)`, `packet_perfnum (id, perfnum)`, or the
bare tag.  Its on-wire width is the width of the largest variant. -/

/-- `sizeof(enum packet_id)` on the target host. -/
def sizeofPacketId : Nat := 4

/-- `sizeof(union packet)`: the maximum of the sizes of its members
(`enum` alone, `packet_done`, `packet_closed`, `packet_range`,
`packet_perfnum`).  `packet_range` is the largest at 12 bytes. -/
def sizeofPacket : Nat :=
  max (max (max (max sizeofPacketId
    (sizeofPacketId + sizeofPid))       -- struct packet_done
    (sizeofPacketId + sizeofPid))       -- struct packet_closed
    (sizeofPacketId + 2 * sizeofInt))   -- struct packet_range
    (sizeofPacketId + sizeofInt)        -- struct packet_perfnum

/-- A byte stream as the kernel delivers it to `read(2)`: a list of
chunks, each chunk the number of bytes available at one `read` call
(`0` models orderly end-of-file / peer close).  POSIX `read(fd, buf, n)`
on a pipe or socket returns `min n c` bytes when `c` bytes are currently
available, which may be fewer than `n` (a short read). -/
def posixRead (stream : List Nat) (n : Nat) : Int × List Nat :=
  match stream with
  | [] => (0, [])
  | c :: rest => ((min c n : Nat), rest)

/-- `get_packet` (packets.c v1.0): zero-fills the record then performs a
single `read(fd, p, sizeof(union packet))` and returns its result
directly.  There is no retry loop around short reads. -/
def get_packet (stream : List Nat) : Int × List Nat :=
  posixRead stream sizeofPacket

/-- The record buffer `get_packet` leaves behind: `memset(p, 0, sizeof)`
followed by a read of `k` bytes leaves the payload prefix of length `k`
and zero bytes after it.  `data` is the byte prefix the read delivered. -/
def get_packet_buffer (data : List Nat) : List Nat :=
  data.take sizeofPacket ++ List.replicate (sizeofPacket - min sizeofPacket data.length) 0

/-- `send_packet` (packets.c v1.0): a single
`write(fd, p, sizeof(union packet))` — the requested byte count of the
one write it issues. -/
def send_packet_request : Nat := sizeofPacket

/-! ## The perfect-number predicate (compute.c `is_perfect_number`) -/

/-- The divisor list collected by the first loop of `is_perfect_number`:
all `i` in `[1, n)` with `n % i == 0`. -/
def divisorList (n : Nat) : List Nat :=
  (List.range n).filter (fun i => decide (0 < i) && decide (n % i = 0))

/-- `is_perfect_number` (compute.c v1.0): sums the divisors in `[1, n)`
into an `unsigned int` accumulator (addition modulo `2^32`) and returns
`sum == n`. -/
def is_perfect_number (n : Nat) : Bool :=
  decide ((divisorList n).foldl (fun s i => (s + i) % 2 ^ 32) 0 = n)

/-- The specification's predicate, for comparison with the code: a
perfect number is a *positive* integer equal to the sum of its proper
divisors. -/
def IsPerfectSpec (n : Nat) : Prop :=
  0 < n ∧ ((List.range n).filter (fun i => 0 < i ∧ n % i = 0)).sum = n

instance (n : Nat) : Decidable (IsPerfectSpec n) := by
  unfold IsPerfectSpec; infer_instance

/-! ## Shared-memory region sizes (manage.c `shmem_init`, shmem.c
`shmem_load`)

The coordinator computes the region's total size from `limit`; a
consumer mounting the region reads `limit` from the header, derives an
expected size by the same formula and rejects the region if it differs
from the on-disk size. -/

/-- `bitmap_size` as both sides compute it: `limit / 8 + 1` bytes. -/
def bitmap_size (limit : Nat) : Nat := limit / 8 + 1

/-- `total_size` computed by `shmem_init` (manage.c v1.0):
`sizeof(pid_t) + sizeof(int) + 2*sizeof(sem_t) + bitmap_size
 + NPERFNUMS*sizeof(int) + NPROCS*sizeof(struct process)`. -/
def shmem_init_total_size (limit : Nat) : Nat :=
  sizeofPid + sizeofInt + 2 * sizeofSem + bitmap_size limit +
    NPERFNUMS * sizeofInt + NPROCS * sizeofProcess

/-- `total_size` derived by `shmem_load` (shmem.c v1.0) from the `limit`
it reads out of the region header, before comparing it with
`lseek(fd, 0, SEEK_END)`. -/
def shmem_load_expected_size (limit : Nat) : Nat :=
  sizeofPid + sizeofInt + 2 * sizeofSem + bitmap_size limit +
    NPERFNUMS * sizeofInt + NPROCS * sizeofProcess

/-- The size verification in `shmem_load`: accept the region iff the
derived size equals the region's on-disk size. -/
def shmem_load_size_check (limit regionSize : Nat) : Bool :=
  decide (shmem_load_expected_size limit = regionSize)

/-! ## SOCKET coordinator (manage.c `sock_init`, `sock_handle_packet`)

The handler's state is the subset of `struct sock_res` it reads or
writes; file descriptors are `Int` with `-1` the "none" sentinel, as in
the source.  Packets sent during one call are collected, in order, as
`(destination fd, message)` pairs. -/

/-- An inbound record as `sock_handle_packet` inspects it. -/
inductive Packet where
  | null : Packet
  | done (pid : Int) : Packet
  | closed (pid : Int) : Packet
  | kill : Packet
  | range (start stop : Int) : Packet
  | perfnum (n : Int) : Packet
  | notify : Packet
  | accept : Packet
  | refuse : Packet
  deriving DecidableEq, Repr

/-- An outbound message with exactly the fields the handler sets before
calling `send_packet`.  The `DONE` records the coordinator emits carry
no meaningful pid (the source leaves the field unset), so the variant is
a bare tag. -/
inductive SentMsg where
  | range (start stop : Int) : SentMsg
  | refuse : SentMsg
  | accept : SentMsg
  | doneTag : SentMsg
  | closed (pid : Int) : SentMsg
  | perfnum (n : Int) : SentMsg
  deriving DecidableEq, Repr

/-- The fields of `struct sock_res` used by `sock_handle_packet`. -/
structure SockRes where
  notify : Int
  perfnums : List Int
  limit : Int
  highest_assigned : Int
  done : Bool
  missed_some : Bool
  deriving DecidableEq, Repr

/-- The result of one `sock_handle_packet` call: the boolean the
function returns (`true` exactly for `KILL`), the updated state, and the
packets sent, in order. -/
structure HandleResult where
  shutdown : Bool
  res : SockRes
  sent : List (Int × SentMsg)
  deriving DecidableEq, Repr

/-- `sock_handle_packet` (manage.c v1.0, switch over `p->id`). -/
def sock_handle_packet (fd : Int) (res : SockRes) (p : Packet) : HandleResult :=
  match p with
  | .perfnum n =>
      { shutdown := false
        res := { res with perfnums := res.perfnums ++ [n] }
        sent := if res.notify ≠ -1 then [(res.notify, .perfnum n)] else [] }
  | .done _ =>
      if res.highest_assigned < res.limit then
        -- outbound.range.start = highest_assigned + 1;
        -- outbound.range.end = start + NASSIGN - 1;
        -- highest_assigned = outbound.range.end
        { shutdown := false
          res := { res with
            highest_assigned := res.highest_assigned + NASSIGN }
          sent := [(fd, .range (res.highest_assigned + 1)
                              (res.highest_assigned + NASSIGN))] }
      else
        { shutdown := false
          res := { res with done := true }
          sent := (fd, .refuse) ::
            (if res.notify ≠ -1 then [(res.notify, .doneTag)] else []) }
  | .closed pid =>
      { shutdown := false
        res := { res with missed_some := true }
        sent := if res.notify ≠ -1 then [(res.notify, .closed pid)] else [] }
  | .kill =>
      { shutdown := true, res := res, sent := [] }
  | .notify =>
      if res.notify = -1 then
        { shutdown := false
          res := { res with notify := fd }
          sent := (fd, .accept) ::
            (if res.missed_some then [(fd, .closed PID_CLIENT)] else []) ++
            res.perfnums.map (fun n => (fd, .perfnum n)) ++
            (if res.done then [(fd, .doneTag)] else []) }
      else
        { shutdown := false, res := res, sent := [(fd, .refuse)] }
  | _ =>
      -- PACKETID_NULL / PACKETID_RANGE / unrecognized: log only
      { shutdown := false, res := res, sent := [] }

/-- `sock_init` (manage.c v1.0), the argument-dependent part: after the
`argc < SOCK_ARGC` usage check (which exits) the function initialises
the state from `limit = atoi(argv[2])` and succeeds; the limit's value
is never validated. -/
def sock_init_model (argc : Nat) (limit : Int) : Option SockRes :=
  if argc < 3 then
    none  -- usage(): print usage and exit(EXIT_FAILURE)
  else
    some { notify := -1, perfnums := [], limit := limit,
           highest_assigned := 0, done := false, missed_some := false }

/-! ## Coordinator start-up argument handling (manage.c `shmem_init`)

`shmem_init` performs the `argc < SHMEM_ARGC` usage check, reads
`limit = atoi(argv[2])` and computes the layout sizes; no value of
`limit` is rejected. -/

/-- The layout `shmem_init` computes before creating the region. -/
structure ShmemLayout where
  bitmapSize : Nat
  totalSize : Nat
  deriving DecidableEq, Repr

/-- `shmem_init` (manage.c v1.0), the argument-dependent part: usage
exit on missing arguments, otherwise proceed with the layout computed
from the limit — for every limit value. -/
def shmem_init_model (argc : Nat) (limit : Nat) : Option ShmemLayout :=
  if argc < 3 then
    none  -- usage(): print usage and exit(EXIT_FAILURE)
  else
    some { bitmapSize := bitmap_size limit
           totalSize := shmem_init_total_size limit }

/-- The result table as `shmem_init` leaves it: the region bytes come
from `ftruncate` extending a freshly created object, which zero-fills,
and `shmem_init` writes only the header and roster — every result slot
starts as `0`. -/
def shmem_init_perfnums : List Int := List.replicate NPERFNUMS 0

/-! ## Shared result table (compute.c `shmem_report`)

The result semaphore is modelled by its counter value; `sem_wait`
succeeds only when the counter is positive (otherwise the calling
process blocks forever, modelled as `none`), `sem_post` increments. -/

/-- `sem_wait`: decrement when positive, block (`none`) at zero. -/
def sem_wait (s : Nat) : Option Nat :=
  if 0 < s then some (s - 1) else none

/-- `sem_post`: increment the counter. -/
def sem_post (s : Nat) : Nat := s + 1

/-- The state `shmem_report` touches: the result-table semaphore and the
result slots. -/
structure ReportState where
  resultSem : Nat
  perfnums : List Int
  deriving DecidableEq, Repr

/-- The scan-and-insert loop of `shmem_report`: walk the slots in order,
write `n` into the first slot equal to `0`; `none` when every slot is
occupied. -/
def insertFirstZero (slots : List Int) (n : Int) : Option (List Int) :=
  match slots with
  | [] => none
  | x :: xs =>
      if x = 0 then some (n :: xs)
      else (insertFirstZero xs n).map (fun ys => x :: ys)

/-- `shmem_report` (compute.c v1.0): `sem_wait` on the result semaphore
(`none` = blocks forever on a held semaphore), then scan for the first
empty slot.  On success write the number, `sem_post`, return `true`.
When no slot is empty the function returns `false` immediately — with
no `sem_post` on that path, so the semaphore stays at its decremented
value. -/
def shmem_report (st : ReportState) (n : Int) : Option (Bool × ReportState) :=
  match sem_wait st.resultSem with
  | none => none
  | some s0 =>
      match insertFirstZero st.perfnums n with
      | some slots' => some (true, { resultSem := sem_post s0, perfnums := slots' })
      | none => some (false, { resultSem := s0, perfnums := st.perfnums })

/-! ## Claim bitmap (compute.c `next_test`)

`next_test` scans the bitmap without the lock for a zero bit; on finding
one it acquires the bitmap semaphore, *re-checks* the bit, sets it only
if it is still zero and returns `bitIndex + 1`, else releases and keeps
scanning.  Because every write to the bitmap happens inside this
critical section, a concurrent run of workers is a sequence of atomic
critical-section events.  A trace event is one critical section executed
by some worker at some bit index: either the re-check still found the
bit clear and the worker claimed it (`claim`), or the re-check found the
bit already set and the worker released and moved on (`recheckFail`). -/

/-- The bitmap: bit `k` (candidate `k + 1`) claimed or not. -/
abbrev Bitmap := List Bool

/-- Read bit `k` (clear outside the mapped region). -/
def getBit (b : Bitmap) (k : Nat) : Bool := b.getD k false

/-- `SET_BIT`: set bit `k`. -/
def setBit (b : Bitmap) (k : Nat) : Bitmap := b.set k true

/-- One bitmap-semaphore critical section inside `next_test`, tagged
with the worker that executed it and the bit index it inspected. -/
inductive Ev where
  | claim (w k : Nat) : Ev
  | recheckFail (w k : Nat) : Ev
  deriving DecidableEq, Repr

/-- The effect of one critical section on the bitmap, `none` when the
event is not enabled: `claim w k` requires the re-check to find bit `k`
clear (and `k` inside the region) and sets it; `recheckFail w k`
requires the re-check to find bit `k` already set and changes nothing.
`next_test` never clears a bit (it uses only `SET_BIT`). -/
def stepEv (b : Bitmap) : Ev → Option Bitmap
  | .claim _ k => if getBit b k = false ∧ k < b.length then some (setBit b k) else none
  | .recheckFail _ k => if getBit b k = true then some b else none

/-- Run a trace of critical sections from an initial bitmap; `none` when
some event was not enabled in its state. -/
def runTrace (b : Bitmap) : List Ev → Option Bitmap
  | [] => some b
  | e :: tr =>
      match stepEv b e with
      | none => none
      | some b' => runTrace b' tr

/-- The candidate a successful `claim` at bit `k` returns:
`test = (addr - bitmap) * 8 + i + 1` with `k = (addr - bitmap) * 8 + i`. -/
def claimedCandidate (k : Nat) : Nat := k + 1

/-- How many events of a trace claim bit `k` (observe its zero-to-one
transition and return candidate `k + 1`). -/
def countClaims (tr : List Ev) (k : Nat) : Nat :=
  (tr.filter (fun e => match e with
    | .claim _ j => decide (j = k)
    | .recheckFail _ _ => false)).length

/-! ## PIPES pre-partition (manage.c `spawn_computes`)

`spawn_computes` computes `numbers_per_proc = floor(limit / nprocs)`
(the `floor((double)limit / (double)nprocs)` of the source equals the
integer quotient for every pair of C `int` arguments, since a 53-bit
mantissa cannot round a quotient of 31-bit integers across an integer
boundary) and hands worker `i` the range `[start, end]` where `end`
carries over between iterations: worker 0 gets
`[1, numbers_per_proc + limit % nprocs]`, every later worker gets
`[prevEnd + 1, prevEnd + numbers_per_proc]`. -/

/-- The ranges of the workers after the first: `count` consecutive
blocks of `npp` values starting right after `e`. -/
def rangesAux (e npp : Nat) : Nat → List (Nat × Nat)
  | 0 => []
  | count + 1 => (e + 1, e + npp) :: rangesAux (e + npp) npp count

/-- The `[start, end]` pairs `spawn_computes` passes to the workers, in
spawn order. -/
def spawn_ranges (limit nprocs : Nat) : List (Nat × Nat) :=
  match nprocs with
  | 0 => []
  | count + 1 =>
      (1, limit / nprocs + limit % nprocs) ::
        rangesAux (limit / nprocs + limit % nprocs) (limit / nprocs) count

/-! ## Theorems -/

/-- C4: for every limit `L`, the size that `shmem_load` derives from the
limit stored in the region header equals the total size `shmem_init`
computed when creating the region, so a consumer mounting a region
freshly created by the coordinator with the same limit passes the size
verification. -/
theorem C4_shmem_size_roundtrip (L : Nat) :
    shmem_load_expected_size L = shmem_init_total_size L ∧
    shmem_load_size_check L (shmem_init_total_size L) = true := by
  refine ⟨rfl, ?_⟩
  simp [shmem_load_size_check, shmem_load_expected_size, shmem_init_total_size]

/-- C6 (the failing input evaluated): `is_perfect_number(0)` returns
`true` in the code — the divisor loop `for (i = 1; i < 0; i++)` never
runs, the accumulator stays `0`, and `sum == n` is `0 == 0` — although
`0` is not a perfect number (the predicate the function documents). -/
theorem C6_is_perfect_number_zero :
    is_perfect_number 0 = true ∧ ¬ IsPerfectSpec 0 := by
  exact ⟨by decide, by decide⟩

/-- C5 (counterexample): on a stream whose first `read` delivers only 4
bytes, `get_packet` returns the positive count 4, strictly smaller than
`sizeof(union packet) = 12` — refuting the claim that `get_packet` never
returns a positive count smaller than `sizeof(union packet)`. -/
theorem C5_short_read_counterexample :
    0 < (get_packet [4]).1 ∧ (get_packet [4]).1 < (sizeofPacket : Int) := by
  decide

/-- C5 (amended): `send_packet` issues a single `write` requesting
exactly `sizeof(union packet)` bytes, and `get_packet` zero-fills the
record then issues a single `read` of `sizeof(union packet)` bytes and
returns that read's result directly — `0` on orderly peer close, else
the count the one read delivered.  Short reads are not retried: a
delivery of `c < sizeof(union packet)` bytes is returned as the count
`c`, and the bytes of the record past the delivered prefix remain the
zero fill. -/
theorem C5_get_packet_single_read :
    send_packet_request = sizeofPacket ∧
    (∀ rest, get_packet (0 :: rest) = (0, rest)) ∧
    (∀ c rest, c ≤ sizeofPacket → (get_packet (c :: rest)).1 = (c : Int)) ∧
    (∀ data, (get_packet_buffer data).length = sizeofPacket) ∧
    (∀ data, ∀ x ∈ (get_packet_buffer data).drop data.length, x = 0) := by
  refine ⟨rfl, ?_, ?_, ?_, ?_⟩
  · intro rest
    simp [get_packet, posixRead]
  · intro c rest hc
    simp [get_packet, posixRead, Nat.min_eq_left hc]
  · intro data
    simp only [get_packet_buffer, List.length_append, List.length_take,
      List.length_replicate]
    omega
  · intro data x hx
    unfold get_packet_buffer at hx
    rcases Nat.le_total data.length sizeofPacket with hle | hle
    · rw [List.take_of_length_le hle, List.drop_left] at hx
      exact List.eq_of_mem_replicate hx
    · have hnil : ((data.take sizeofPacket ++
          List.replicate (sizeofPacket - min sizeofPacket data.length) 0).drop
            data.length) = [] := by
        apply List.drop_eq_nil_of_le
        simp only [List.length_append, List.length_take, List.length_replicate]
        omega
      rw [hnil] at hx
      simp at hx

/-- C5 (witness for the amended theorem): a 4-byte delivery is returned
as the count 4, and byte 7 of the record (past the 4 delivered bytes)
is still zero. -/
theorem C5_get_packet_single_read_witness :
    (get_packet (4 :: [])).1 = (4 : Int) ∧
    ∀ x ∈ (get_packet_buffer [9, 9, 9, 9]).drop 4, x = 0 := by
  constructor
  · exact C5_get_packet_single_read.2.2.1 4 [] (by decide)
  · have h := C5_get_packet_single_read.2.2.2.2 [9, 9, 9, 9]
    simpa using h

/-- C9 (counterexample): invoked with enough arguments and limit `0`,
the coordinator does not report a configuration error: `shmem_init`
computes a 1-byte bitmap and a 393-byte region and proceeds, and
`sock_init` proceeds with limit `0` — neither rejects the limit. -/
theorem C9_limit_zero_counterexample :
    shmem_init_model 3 0 = some ⟨1, 393⟩ ∧
    sock_init_model 3 0 =
      some ⟨-1, [], 0, 0, false, false⟩ := by
  exact ⟨by decide, by decide⟩

/-- C9 (amended): a limit of `0` is not rejected.  The only
configuration check in `shmem_init` and `sock_init` is the
argument-count test (`usage()` exits when arguments are missing); with
sufficient arguments both proceed for every limit, including `0`.
With limit `0` the socket coordinator grants no work: the first `DONE`
is answered `REFUSE` because `highest_assigned = 0` is not below the
limit. -/
theorem C9_limit_zero_accepted :
    (∀ argc L, shmem_init_model argc L = none ↔ argc < 3) ∧
    (∀ argc L, sock_init_model argc L = none ↔ argc < 3) ∧
    (∀ fd pid,
      (sock_handle_packet fd ⟨-1, [], 0, 0, false, false⟩ (.done pid)).sent
        = [(fd, SentMsg.refuse)]) := by
  refine ⟨?_, ?_, ?_⟩
  · intro argc L
    unfold shmem_init_model
    split <;> simp_all
  · intro argc L
    unfold sock_init_model
    split <;> simp_all
  · intro fd pid
    simp [sock_handle_packet]

/-- C1 (counterexample): with limit `500` and `highest_assigned = 0`, a
`DONE` record is answered `RANGE(1, 1000)` — the end of the granted
range is `0 + NASSIGN = 1000`, not `min(0 + NASSIGN, 500) = 500`, and it
exceeds the limit. -/
theorem C1_range_not_clamped_counterexample :
    (sock_handle_packet 5 ⟨-1, [], 500, 0, false, false⟩ (.done 77)).sent
        = [(5, SentMsg.range 1 1000)] ∧
    min (0 + NASSIGN) 500 = (500 : Int) ∧
    ¬ ((1000 : Int) ≤ 500) := by
  exact ⟨by decide, by decide, by decide⟩

/-- C1 (amended): when a `DONE` record is received and
`highest_assigned < L`, `sock_handle_packet` replies
`RANGE(highest_assigned + 1, highest_assigned + NASSIGN)` — the end is
not clamped to `L` and may exceed it — and advances the high-water mark
by exactly `NASSIGN`; otherwise it sets the done flag, replies `REFUSE`,
and if a notify-subscriber exists sends it `DONE`. -/
theorem C1_done_handling (fd pid : Int) (res : SockRes) :
    (res.highest_assigned < res.limit →
      (sock_handle_packet fd res (.done pid)).sent
          = [(fd, SentMsg.range (res.highest_assigned + 1)
                (res.highest_assigned + NASSIGN))] ∧
      (sock_handle_packet fd res (.done pid)).res
          = { res with highest_assigned := res.highest_assigned + NASSIGN }) ∧
    (res.limit ≤ res.highest_assigned →
      (sock_handle_packet fd res (.done pid)).res
          = { res with done := true } ∧
      (sock_handle_packet fd res (.done pid)).sent
          = (fd, SentMsg.refuse) ::
              (if res.notify ≠ -1 then [(res.notify, SentMsg.doneTag)] else [])) := by
  constructor
  · intro h
    simp [sock_handle_packet, h]
  · intro h
    have h2 : ¬ res.highest_assigned < res.limit := not_lt.mpr h
    simp [sock_handle_packet, h2]

/-- C1 (witness): both branches of the amended theorem at concrete
states — granting from `highest_assigned = 0` with limit `500`, and
refusing at `highest_assigned = 500` with a subscriber on fd `7`. -/
theorem C1_done_handling_witness :
    ((sock_handle_packet 5 ⟨-1, [], 500, 0, false, false⟩ (.done 77)).sent
        = [(5, SentMsg.range 1 1000)] ∧
      (sock_handle_packet 5 ⟨-1, [], 500, 0, false, false⟩ (.done 77)).res
        = ⟨-1, [], 500, 1000, false, false⟩) ∧
    ((sock_handle_packet 5 ⟨7, [6], 500, 500, false, false⟩ (.done 77)).res
        = ⟨7, [6], 500, 500, true, false⟩ ∧
      (sock_handle_packet 5 ⟨7, [6], 500, 500, false, false⟩ (.done 77)).sent
        = [(5, SentMsg.refuse), (7, SentMsg.doneTag)]) := by
  constructor
  · have h := (C1_done_handling 5 77 ⟨-1, [], 500, 0, false, false⟩).1 (by decide)
    exact ⟨h.1, h.2⟩
  · have h := (C1_done_handling 5 77 ⟨7, [6], 500, 500, false, false⟩).2 (by decide)
    refine ⟨h.1, ?_⟩
    rw [h.2]
    decide

/-- C8: when the SOCKET coordinator receives `NOTIFY` and no subscriber
is registered (`notify == -1`), it registers the sender and sends it, in
order: `ACCEPT`; then `CLOSED(PID_CLIENT)` exactly when the
`missed_some` flag is set; then one `PERFNUM` per entry of the stored
result history, in order; then `DONE` exactly when the done flag is
set.  When a subscriber is already registered it replies `REFUSE` and
the state — in particular the registered subscriber — is unchanged. -/
theorem C8_notify_handling (fd : Int) (res : SockRes) :
    (res.notify = -1 →
      sock_handle_packet fd res .notify =
        { shutdown := false
          res := { res with notify := fd }
          sent := (fd, SentMsg.accept) ::
            (if res.missed_some then [(fd, SentMsg.closed PID_CLIENT)] else []) ++
            res.perfnums.map (fun n => (fd, SentMsg.perfnum n)) ++
            (if res.done then [(fd, SentMsg.doneTag)] else []) }) ∧
    (res.notify ≠ -1 →
      sock_handle_packet fd res .notify =
        { shutdown := false, res := res, sent := [(fd, SentMsg.refuse)] }) := by
  constructor
  · intro h
    simp [sock_handle_packet, h]
  · intro h
    simp [sock_handle_packet, h]

/-- C8 (witness): a reporter on fd `9` subscribing to a coordinator with
history `[6, 28]`, a dead worker recorded and the run finished receives
`ACCEPT`, `CLOSED(1)`, `PERFNUM 6`, `PERFNUM 28`, `DONE`; a second
subscription attempt from fd `4` is refused and the subscriber slot
still holds `9`. -/
theorem C8_notify_handling_witness :
    sock_handle_packet 9 ⟨-1, [6, 28], 30, 1000, true, true⟩ .notify =
      { shutdown := false
        res := ⟨9, [6, 28], 30, 1000, true, true⟩
        sent := [(9, SentMsg.accept), (9, SentMsg.closed 1), (9, SentMsg.perfnum 6),
                 (9, SentMsg.perfnum 28), (9, SentMsg.doneTag)] } ∧
    sock_handle_packet 4 ⟨9, [6, 28], 30, 1000, true, true⟩ .notify =
      { shutdown := false
        res := ⟨9, [6, 28], 30, 1000, true, true⟩
        sent := [(4, SentMsg.refuse)] } := by
  constructor
  · rw [(C8_notify_handling 9 ⟨-1, [6, 28], 30, 1000, true, true⟩).1 (by decide)]
    decide
  · rw [(C8_notify_handling 4 ⟨9, [6, 28], 30, 1000, true, true⟩).2 (by decide)]

/-- A successful scan of `shmem_report` locates the first slot equal to
zero: the written index is in range, it held zero, every earlier slot
was occupied, and the new table is the old one with only that slot
changed. -/
theorem insertFirstZero_spec (slots : List Int) (n : Int) (out : List Int)
    (h : insertFirstZero slots n = some out) :
    ∃ i, i < slots.length ∧ slots.getD i 1 = 0 ∧
      (∀ j, j < i → slots.getD j 0 ≠ 0) ∧ out = slots.set i n := by
  induction slots generalizing out with
  | nil => simp [insertFirstZero] at h
  | cons x xs ih =>
      by_cases hx : x = 0
      · simp only [insertFirstZero, if_pos hx, Option.some_inj] at h
        refine ⟨0, by simp, by simp [hx], by omega, by simp [← h]⟩
      · rcases hrec : insertFirstZero xs n with _ | ys
        · simp [insertFirstZero, if_neg hx, hrec] at h
        · simp only [insertFirstZero, if_neg hx, hrec, Option.map_some',
            Option.some_inj] at h
          obtain ⟨i, hi, hzero, hbefore, hset⟩ := ih ys hrec
          refine ⟨i + 1, by simpa using hi, by simpa using hzero, ?_, ?_⟩
          · intro j hj
            match j with
            | 0 => simpa using hx
            | j + 1 => simpa using hbefore j (by omega)
          · rw [← h, hset]
            rfl

/-- A scan over a table with no empty slot fails. -/
theorem insertFirstZero_none (slots : List Int) (n : Int)
    (h : ∀ x ∈ slots, x ≠ 0) : insertFirstZero slots n = none := by
  induction slots with
  | nil => rfl
  | cons x xs ih =>
      have hx : x ≠ 0 := h x (by simp)
      simp only [insertFirstZero, if_neg hx]
      rw [ih (fun y hy => h y (by simp [hy]))]
      rfl

/-- Evaluation of `shmem_report` from a free semaphore when a zero slot
exists: the number is written, the semaphore is posted back to 1. -/
theorem shmem_report_found (st : ReportState) (n : Int) (slots2 : List Int)
    (hsem : st.resultSem = 1)
    (hins : insertFirstZero st.perfnums n = some slots2) :
    shmem_report st n = some (true, ⟨1, slots2⟩) := by
  simp [shmem_report, hsem, sem_wait, sem_post, hins]

/-- Evaluation of `shmem_report` from a free semaphore when every slot
is occupied: the call returns `false` with the semaphore still taken. -/
theorem shmem_report_full (st : ReportState) (n : Int)
    (hsem : st.resultSem = 1)
    (hins : insertFirstZero st.perfnums n = none) :
    shmem_report st n = some (false, ⟨0, st.perfnums⟩) := by
  simp [shmem_report, hsem, sem_wait, sem_post, hins]

/-- C7: slot discipline of the shared result table.  The table
`shmem_init` leaves behind is all zeros; a `shmem_report` that succeeds
writes the reported number into the first slot equal to zero and
releases the semaphore; every slot that was already non-zero is left
unchanged by the call, whether or not an empty slot was found; and a
table of zero-or-positive entries stays zero-or-positive when the
reported number is positive. -/
theorem C7_slot_discipline (st : ReportState) (n : Int) (b : Bool)
    (out : ReportState) (hsem : st.resultSem = 1)
    (h : shmem_report st n = some (b, out)) :
    (∀ x ∈ shmem_init_perfnums, x = 0) ∧
    (b = true →
      ∃ i, i < st.perfnums.length ∧ st.perfnums.getD i 1 = 0 ∧
        (∀ j, j < i → st.perfnums.getD j 0 ≠ 0) ∧
        out.perfnums = st.perfnums.set i n ∧ out.resultSem = 1) ∧
    (∀ j, st.perfnums.getD j 0 ≠ 0 →
      out.perfnums.getD j 0 = st.perfnums.getD j 0) ∧
    (0 < n → (∀ x ∈ st.perfnums, 0 ≤ x) → ∀ x ∈ out.perfnums, 0 ≤ x) := by
  rcases hins : insertFirstZero st.perfnums n with _ | slots2
  · rw [shmem_report_full st n hsem hins] at h
    simp only [Option.some_inj, Prod.mk.injEq] at h
    obtain ⟨hb, hout⟩ := h
    subst hb
    subst hout
    refine ⟨fun x hx => List.eq_of_mem_replicate hx, ?_, ?_, ?_⟩
    · intro hcontra
      exact absurd hcontra (by decide)
    · intro j _
      rfl
    · intro _ hall x hx
      exact hall x hx
  · rw [shmem_report_found st n slots2 hsem hins] at h
    simp only [Option.some_inj, Prod.mk.injEq] at h
    obtain ⟨hb, hout⟩ := h
    subst hb
    subst hout
    obtain ⟨i, hi, hzero, hbefore, hset⟩ := insertFirstZero_spec _ _ _ hins
    have hgetD0 : st.perfnums.getD i 0 = 0 := by
      rcases hv : st.perfnums.get? i with _ | v
      · exact absurd (List.get?_eq_none.mp hv) (by omega)
      · have h0 := hzero
        rw [List.getD] at h0 ⊢
        rw [hv] at h0 ⊢
        simpa using h0
    refine ⟨fun x hx => List.eq_of_mem_replicate hx, ?_, ?_, ?_⟩
    · intro _
      exact ⟨i, hi, hzero, hbefore, by rw [hset], rfl⟩
    · intro j hj
      have hji : i ≠ j := by
        intro hji
        subst hji
        exact hj hgetD0
      show slots2.getD j 0 = st.perfnums.getD j 0
      rw [hset, List.getD, List.getD, List.get?_set_ne _ _ hji]
    · intro hpos hall x hx
      have hx2 : x ∈ st.perfnums.set i n := by
        rw [← hset]
        exact hx
      rcases List.mem_or_eq_of_mem_set hx2 with hmem | hrfl
      · exact hall x hmem
      · omega

/-- C7 (witness): reporting `28` into the table `[6, 0, 0]` with a free
semaphore writes the first empty slot, keeps slot 0 at `6`, and keeps
all entries non-negative. -/
theorem C7_slot_discipline_witness :
    (∀ x ∈ shmem_init_perfnums, x = 0) ∧
    (true = true →
      ∃ i, i < ([6, 0, 0] : List Int).length ∧
        ([6, 0, 0] : List Int).getD i 1 = 0 ∧
        (∀ j, j < i → ([6, 0, 0] : List Int).getD j 0 ≠ 0) ∧
        (⟨1, [6, 28, 0]⟩ : ReportState).perfnums = ([6, 0, 0] : List Int).set i 28 ∧
        (⟨1, [6, 28, 0]⟩ : ReportState).resultSem = 1) ∧
    (∀ j, ([6, 0, 0] : List Int).getD j 0 ≠ 0 →
      (⟨1, [6, 28, 0]⟩ : ReportState).perfnums.getD j 0
        = ([6, 0, 0] : List Int).getD j 0) ∧
    ((0 : Int) < 28 → (∀ x ∈ ([6, 0, 0] : List Int), 0 ≤ x) →
      ∀ x ∈ (⟨1, [6, 28, 0]⟩ : ReportState).perfnums, 0 ≤ x) :=
  C7_slot_discipline ⟨1, [6, 0, 0]⟩ 28 true ⟨1, [6, 28, 0]⟩ rfl (by decide)

/-- C10: when every slot of the result table is occupied, `shmem_report`
acquires the result semaphore, finds no empty slot, and returns `false`
leaving the table unchanged and the semaphore taken (`sem_post` is never
executed on that path) — after which any acquisition of the semaphore,
in particular any later `shmem_report`, blocks forever. -/
theorem C10_full_table_holds_semaphore (st : ReportState) (n : Int)
    (hsem : st.resultSem = 1) (_hlen : st.perfnums.length = NPERFNUMS)
    (hfull : ∀ x ∈ st.perfnums, x ≠ 0) :
    shmem_report st n = some (false, ⟨0, st.perfnums⟩) ∧
    sem_wait 0 = none ∧
    (∀ m, shmem_report ⟨0, st.perfnums⟩ m = none) := by
  refine ⟨shmem_report_full st n hsem (insertFirstZero_none _ _ hfull), rfl, ?_⟩
  intro m
  rw [shmem_report]
  rfl

/-- C10 (witness): a full table of twenty sixes deadlocks the result
semaphore. -/
theorem C10_full_table_holds_semaphore_witness :
    shmem_report ⟨1, List.replicate 20 6⟩ 28
        = some (false, ⟨0, List.replicate 20 6⟩) ∧
    sem_wait 0 = none ∧
    (∀ m, shmem_report ⟨0, List.replicate 20 6⟩ m = none) :=
  C10_full_table_holds_semaphore ⟨1, List.replicate 20 6⟩ 28 rfl (by decide)
    (by decide)

/-- Inversion of a successful `claim` critical section: the re-check
found the bit clear inside the mapped region, and the section set it. -/
theorem stepEv_claim_some (b b1 : Bitmap) (w k : Nat)
    (h : stepEv b (.claim w k) = some b1) :
    getBit b k = false ∧ k < b.length ∧ b1 = setBit b k := by
  simp only [stepEv] at h
  split at h
  next hc => exact ⟨hc.1, hc.2, (Option.some_inj.mp h).symm⟩
  next => exact Option.noConfusion h

/-- Inversion of a failed re-check: the bit was already set and the
bitmap is unchanged. -/
theorem stepEv_recheck_some (b b1 : Bitmap) (w k : Nat)
    (h : stepEv b (.recheckFail w k) = some b1) :
    getBit b k = true ∧ b1 = b := by
  simp only [stepEv] at h
  split at h
  next hc => exact ⟨hc, (Option.some_inj.mp h).symm⟩
  next => exact Option.noConfusion h

/-- `SET_BIT` sets the addressed bit. -/
theorem getBit_setBit_self (b : Bitmap) (k : Nat) (hk : k < b.length) :
    getBit (setBit b k) k = true := by
  rw [getBit, setBit, List.getD, List.get?_set_eq_of_lt _ hk]
  rfl

/-- `SET_BIT` leaves every other bit alone. -/
theorem getBit_setBit_ne (b : Bitmap) (j k : Nat) (h : j ≠ k) :
    getBit (setBit b j) k = getBit b k := by
  rw [getBit, getBit, setBit, List.getD, List.getD, List.get?_set_ne _ _ h]

/-- Counting claims through a leading `claim` event. -/
theorem countClaims_claim_cons (w j : Nat) (tr : List Ev) (k : Nat) :
    countClaims (.claim w j :: tr) k
      = (if j = k then 1 else 0) + countClaims tr k := by
  by_cases hjk : j = k
  · simp [countClaims, List.filter_cons, hjk]
    omega
  · simp [countClaims, List.filter_cons, hjk]

/-- Counting claims through a leading failed re-check. -/
theorem countClaims_recheck_cons (w j : Nat) (tr : List Ev) (k : Nat) :
    countClaims (.recheckFail w j :: tr) k = countClaims tr k := by
  simp [countClaims, List.filter_cons]

/-- Monotonicity of the claim bitmap: no critical section of `next_test`
clears a bit, so every bit set at the start of a valid trace is still
set at its end. -/
theorem runTrace_mono (tr : List Ev) :
    ∀ b b2 : Bitmap, runTrace b tr = some b2 →
      ∀ k, getBit b k = true → getBit b2 k = true := by
  induction tr with
  | nil =>
      intro b b2 h k hk
      rw [← Option.some_inj.mp h]
      exact hk
  | cons e tr ih =>
      intro b b2 h k hk
      cases e with
      | claim w j =>
          rw [runTrace] at h
          rcases hstep : stepEv b (.claim w j) with _ | b1
          · rw [hstep] at h
            exact Option.noConfusion h
          · rw [hstep] at h
            obtain ⟨hc, hlen, hb1⟩ := stepEv_claim_some b b1 w j hstep
            subst hb1
            by_cases hjk : j = k
            · subst hjk
              exact ih _ _ h j (getBit_setBit_self b j hlen)
            · refine ih _ _ h k ?_
              rw [getBit_setBit_ne b j k hjk]
              exact hk
      | recheckFail w j =>
          rw [runTrace] at h
          rcases hstep : stepEv b (.recheckFail w j) with _ | b1
          · rw [hstep] at h
            exact Option.noConfusion h
          · rw [hstep] at h
            obtain ⟨_, hb1⟩ := stepEv_recheck_some b b1 w j hstep
            subst hb1
            exact ih _ _ h k hk

/-- Once bit `k` is set, no event of a valid trace from that bitmap can
claim it again: the re-check under the semaphore refuses. -/
theorem countClaims_of_set (tr : List Ev) :
    ∀ b b2 : Bitmap, runTrace b tr = some b2 → ∀ k, getBit b k = true →
      countClaims tr k = 0 := by
  induction tr with
  | nil => intro b b2 _ k _; rfl
  | cons e tr ih =>
      intro b b2 h k hk
      cases e with
      | claim w j =>
          rw [runTrace] at h
          rcases hstep : stepEv b (.claim w j) with _ | b1
          · rw [hstep] at h
            exact Option.noConfusion h
          · rw [hstep] at h
            obtain ⟨hc, hlen, hb1⟩ := stepEv_claim_some b b1 w j hstep
            subst hb1
            have hjk : j ≠ k := by
              intro hjk
              rw [hjk, hk] at hc
              exact Bool.noConfusion hc
            rw [countClaims_claim_cons, if_neg hjk, Nat.zero_add]
            refine ih _ _ h k ?_
            rw [getBit_setBit_ne b j k hjk]
            exact hk
      | recheckFail w j =>
          rw [runTrace] at h
          rcases hstep : stepEv b (.recheckFail w j) with _ | b1
          · rw [hstep] at h
            exact Option.noConfusion h
          · rw [hstep] at h
            obtain ⟨_, hb1⟩ := stepEv_recheck_some b b1 w j hstep
            subst hb1
            rw [countClaims_recheck_cons]
            exact ih _ _ h k hk

/-- In every valid trace each bit is claimed at most once: the first
claim sets the bit, and from then on re-checks refuse. -/
theorem countClaims_le_one (tr : List Ev) :
    ∀ b b2 : Bitmap, runTrace b tr = some b2 → ∀ k, countClaims tr k ≤ 1 := by
  induction tr with
  | nil =>
      intro b b2 _ k
      exact Nat.zero_le 1
  | cons e tr ih =>
      intro b b2 h k
      cases e with
      | claim w j =>
          rw [runTrace] at h
          rcases hstep : stepEv b (.claim w j) with _ | b1
          · rw [hstep] at h
            exact Option.noConfusion h
          · rw [hstep] at h
            obtain ⟨hc, hlen, hb1⟩ := stepEv_claim_some b b1 w j hstep
            subst hb1
            by_cases hjk : j = k
            · subst hjk
              rw [countClaims_claim_cons, if_pos rfl,
                countClaims_of_set tr _ _ h j (getBit_setBit_self b j hlen)]
            · rw [countClaims_claim_cons, if_neg hjk, Nat.zero_add]
              exact ih _ _ h k
      | recheckFail w j =>
          rw [runTrace] at h
          rcases hstep : stepEv b (.recheckFail w j) with _ | b1
          · rw [hstep] at h
            exact Option.noConfusion h
          · rw [hstep] at h
            obtain ⟨_, hb1⟩ := stepEv_recheck_some b b1 w j hstep
            subst hb1
            rw [countClaims_recheck_cons]
            exact ih _ _ h k

/-- C3: across any interleaving of `next_test` critical sections from
any initial bitmap, (a) a bit that has been set is never cleared while
the region is live — `next_test` only ever sets bits, and only under the
bitmap semaphore after re-checking that the bit is still zero; (b) at
most one critical section observes the zero-to-one transition of bit
`k`; and (c) a claim of bit `k` returns candidate `k + 1`, so each
candidate is returned by at most one `next_test` call. -/
theorem C3_claim_exclusivity (b b2 : Bitmap) (tr : List Ev)
    (h : runTrace b tr = some b2) :
    (∀ k, getBit b k = true → getBit b2 k = true) ∧
    (∀ k, countClaims tr k ≤ 1) ∧
    (∀ k, claimedCandidate k = k + 1) :=
  ⟨runTrace_mono tr b b2 h, countClaims_le_one tr b b2 h, fun _ => rfl⟩

/-- C3 (witness): two workers interleaved on a three-bit bitmap — worker
0 claims bit 0, worker 1 loses the race on bit 0 (re-check fails) and
then claims bit 1. -/
theorem C3_claim_exclusivity_witness :
    (∀ k, getBit [false, false, true] k = true →
      getBit [true, true, true] k = true) ∧
    (∀ k, countClaims [Ev.claim 0 0, Ev.recheckFail 1 0, Ev.claim 1 1] k ≤ 1) ∧
    (∀ k, claimedCandidate k = k + 1) :=
  C3_claim_exclusivity [false, false, true] [true, true, true]
    [Ev.claim 0 0, Ev.recheckFail 1 0, Ev.claim 1 1] (by decide)

/-- Each later worker spawned by `spawn_computes` receives a block whose
length is exactly `numbers_per_proc`. -/
theorem rangesAux_sizes (npp : Nat) :
    ∀ k e, ∀ p ∈ rangesAux e npp k, p.2 + 1 = p.1 + npp := by
  intro k
  induction k with
  | zero =>
      intro e p hp
      simp [rangesAux] at hp
  | succ k ih =>
      intro e p hp
      rcases List.mem_cons.mp hp with rfl | hpt
      · show e + npp + 1 = e + 1 + npp
        omega
      · exact ih (e + npp) p hpt

/-- `spawn_computes` hands out `count` blocks after the first. -/
theorem rangesAux_length (npp : Nat) :
    ∀ k e, (rangesAux e npp k).length = k := by
  intro k
  induction k with
  | zero => intro e; rfl
  | succ k ih =>
      intro e
      show (rangesAux (e + npp) npp k).length + 1 = k + 1
      rw [ih]

/-- Every block after the first starts past the prefix already handed
out. -/
theorem rangesAux_mem_lb (npp : Nat) :
    ∀ k e, ∀ p ∈ rangesAux e npp k, e + 1 ≤ p.1 := by
  intro k
  induction k with
  | zero =>
      intro e p hp
      simp [rangesAux] at hp
  | succ k ih =>
      intro e p hp
      rcases List.mem_cons.mp hp with rfl | hpt
      · exact Nat.le_refl _
      · have := ih (e + npp) p hpt
        omega

/-- The blocks after the first tile the half-open suffix
`(e, e + k * numbers_per_proc]` exactly. -/
theorem rangesAux_cover (npp : Nat) (hnpp : 1 ≤ npp) :
    ∀ k e n, (∃ p ∈ rangesAux e npp k, p.1 ≤ n ∧ n ≤ p.2) ↔
      (e + 1 ≤ n ∧ n ≤ e + k * npp) := by
  intro k
  induction k with
  | zero =>
      intro e n
      simp [rangesAux]
      omega
  | succ k ih =>
      intro e n
      constructor
      · rintro ⟨p, hp, h1, h2⟩
        rcases List.mem_cons.mp hp with rfl | hpt
        · refine ⟨h1, ?_⟩
          have hle : npp ≤ (k + 1) * npp :=
            Nat.le_mul_of_pos_left npp (Nat.succ_pos k)
          calc n ≤ e + npp := h2
            _ ≤ e + (k + 1) * npp := Nat.add_le_add_left hle e
        · have hrec := (ih (e + npp) n).mp ⟨p, hpt, h1, h2⟩
          have heq : e + npp + k * npp = e + (k + 1) * npp := by ring
          refine ⟨by omega, ?_⟩
          have h3 := hrec.2
          rw [heq] at h3
          exact h3
      · rintro ⟨h1, h2⟩
        by_cases hc : n ≤ e + npp
        · exact ⟨(e + 1, e + npp), List.mem_cons_self _ _, h1, hc⟩
        · have h1b : e + npp + 1 ≤ n := by omega
          have h2b : n ≤ e + npp + k * npp := by
            have heq : e + npp + k * npp = e + (k + 1) * npp := by ring
            rw [heq]
            exact h2
          obtain ⟨p, hp, hb1, hb2⟩ := (ih (e + npp) n).mpr ⟨h1b, h2b⟩
          exact ⟨p, List.mem_cons_of_mem _ hp, hb1, hb2⟩

/-- The blocks after the first are consecutive: each starts one past the
end of its predecessor. -/
theorem rangesAux_chain (npp : Nat) :
    ∀ k e s, List.Chain' (fun a b : Nat × Nat => b.1 = a.2 + 1)
      ((s, e) :: rangesAux e npp k) := by
  intro k
  induction k with
  | zero =>
      intro e s
      simp [rangesAux]
  | succ k ih =>
      intro e s
      show List.Chain' _ ((s, e) :: (e + 1, e + npp) :: rangesAux (e + npp) npp k)
      rw [List.chain'_cons]
      exact ⟨rfl, ih (e + npp) (e + 1)⟩

/-- The blocks after the first are pairwise disjoint (each ends before
any later one starts). -/
theorem rangesAux_pairwise (npp : Nat) :
    ∀ k e, List.Pairwise (fun a b : Nat × Nat => a.2 < b.1)
      (rangesAux e npp k) := by
  intro k
  induction k with
  | zero => intro e; exact List.Pairwise.nil
  | succ k ih =>
      intro e
      refine List.Pairwise.cons ?_ (ih (e + npp))
      intro p hp
      have := rangesAux_mem_lb npp k (e + npp) p hp
      show e + npp < p.1
      omega

/-- C2: for every limit `L` and worker count `N` with `1 ≤ N ≤ L`, the
`N` ranges `spawn_computes` passes to the PIPES workers are consecutive,
pairwise disjoint, and together cover exactly `[1, L]`; the first worker
receives `[1, L / N + L % N]` and each of the remaining `N - 1` workers
a block of exactly `L / N` values. -/
theorem C2_spawn_partition (L N : Nat) (h1 : 1 ≤ N) (h2 : N ≤ L) :
    (spawn_ranges L N).length = N ∧
    (spawn_ranges L N).head? = some (1, L / N + L % N) ∧
    (∀ p ∈ (spawn_ranges L N).tail, p.2 + 1 = p.1 + L / N) ∧
    List.Chain' (fun a b : Nat × Nat => b.1 = a.2 + 1) (spawn_ranges L N) ∧
    List.Pairwise (fun a b : Nat × Nat => a.2 < b.1) (spawn_ranges L N) ∧
    (∀ n, (∃ p ∈ spawn_ranges L N, p.1 ≤ n ∧ n ≤ p.2) ↔ (1 ≤ n ∧ n ≤ L)) := by
  obtain ⟨k, rfl⟩ : ∃ k, N = k + 1 := ⟨N - 1, by omega⟩
  have hnpp : 1 ≤ L / (k + 1) := (Nat.one_le_div_iff (by omega)).mpr h2
  have hL2 : L / (k + 1) + L % (k + 1) + k * (L / (k + 1)) = L := by
    calc L / (k + 1) + L % (k + 1) + k * (L / (k + 1))
        = (k + 1) * (L / (k + 1)) + L % (k + 1) := by ring
      _ = L := Nat.div_add_mod L (k + 1)
  have hspawn : spawn_ranges L (k + 1) =
      (1, L / (k + 1) + L % (k + 1)) ::
        rangesAux (L / (k + 1) + L % (k + 1)) (L / (k + 1)) k := rfl
  refine ⟨?_, rfl, ?_, ?_, ?_, ?_⟩
  · rw [hspawn]
    show (rangesAux _ _ k).length + 1 = k + 1
    rw [rangesAux_length]
  · rw [hspawn]
    intro p hp
    exact rangesAux_sizes _ k _ p hp
  · rw [hspawn]
    exact rangesAux_chain _ k _ 1
  · rw [hspawn]
    refine List.Pairwise.cons ?_ (rangesAux_pairwise _ k _)
    intro p hp
    have := rangesAux_mem_lb _ k _ p hp
    show L / (k + 1) + L % (k + 1) < p.1
    omega
  · intro n
    rw [hspawn]
    constructor
    · rintro ⟨p, hp, hn1, hn2⟩
      rcases List.mem_cons.mp hp with rfl | hpt
      · refine ⟨hn1, le_trans hn2 (Nat.le.intro hL2)⟩
      · have hrec := (rangesAux_cover _ hnpp k _ n).mp ⟨p, hpt, hn1, hn2⟩
        have h3 := hrec.2
        rw [hL2] at h3
        exact ⟨by omega, h3⟩
    · rintro ⟨hn1, hn2⟩
      by_cases hc : n ≤ L / (k + 1) + L % (k + 1)
      · exact ⟨(1, L / (k + 1) + L % (k + 1)), List.mem_cons_self _ _, hn1, hc⟩
      · have hb : L / (k + 1) + L % (k + 1) + 1 ≤ n := by omega
        have hb2 : n ≤ L / (k + 1) + L % (k + 1) + k * (L / (k + 1)) := by
          rw [hL2]
          exact hn2
        obtain ⟨p, hp, hc1, hc2⟩ := (rangesAux_cover _ hnpp k _ n).mpr ⟨hb, hb2⟩
        exact ⟨p, List.mem_cons_of_mem _ hp, hc1, hc2⟩

/-- C2 (witness): `manage p 30 3` partitions `[1, 30]` into `[1, 10]`,
`[11, 20]`, `[21, 30]`. -/
theorem C2_spawn_partition_witness :
    (spawn_ranges 30 3).length = 3 ∧
    (spawn_ranges 30 3).head? = some (1, 30 / 3 + 30 % 3) ∧
    (∀ p ∈ (spawn_ranges 30 3).tail, p.2 + 1 = p.1 + 30 / 3) ∧
    List.Chain' (fun a b : Nat × Nat => b.1 = a.2 + 1) (spawn_ranges 30 3) ∧
    List.Pairwise (fun a b : Nat × Nat => a.2 < b.1) (spawn_ranges 30 3) ∧
    (∀ n, (∃ p ∈ spawn_ranges 30 3, p.1 ≤ n ∧ n ≤ p.2) ↔ (1 ≤ n ∧ n ≤ 30)) :=
  C2_spawn_partition 30 3 (by decide) (by decide)

end Perfnum
